import Mathlib

/-!
Verification of the sparse-CNN example script (`examples/sparse_cnn.ipynb`).

The script defines a `RandomNoise` image transform, generic `train` / `test`
loops, a fixed model topology with constants, and a schedule that trains the
model and evaluates it on clean and noisy test sets.  Each of those pieces is
embedded below as executable Lean definitions, translated from the notebook
source; theorems about the embedding settle the specification's claims.

Tensors are modelled as flat lists of rational pixel values (the transform
flattens its input with `image.view(-1)` before acting, so the flat view is
the faithful granularity).  numpy's global random generator is external to
the repository and is modelled as a deterministic generator with explicit
state.
-/

namespace SparseCNN

/-! ### The RandomNoise transform

Source (`sparse_cnn.ipynb`, cell defining `RandomNoise`):

```
def __call__(self, image):
    a = image.view(-1)
    num_noise_bits = int(a.shape[0] * self.noise_level)
    noise = np.random.permutation(a.shape[0])[0:num_noise_bits]
    a[noise] = self.white_value
    return image
```
-/

/-- Python `int()` applied to a rational: truncation toward zero. -/
def pyInt (q : ℚ) : ℤ :=
  if q < 0 then -⌊-q⌋ else ⌊q⌋

/-- `num_noise_bits = int(a.shape[0] * self.noise_level)` for an image with
`n` flattened entries, clamped to `ℕ` for use as a slice bound. -/
def numNoiseBits (n : ℕ) (noise_level : ℚ) : ℕ :=
  (pyInt ((n : ℚ) * noise_level)).toNat

/-- `noise = np.random.permutation(a.shape[0])[0:num_noise_bits]`: the pixel
positions selected for overwriting, given the permutation `perm` drawn from
the random generator. -/
def noisePositions (noise_level : ℚ) (perm : List ℕ) (n : ℕ) : List ℕ :=
  perm.take (numNoiseBits n noise_level)

/-- `a[idxs] = w`: write value `w` at every index of `idxs`. -/
def setIndices (w : ℚ) (idxs : List ℕ) (a : List ℚ) : List ℚ :=
  idxs.foldl (fun acc i => acc.set i w) a

/-- `RandomNoise.__call__` on a flattened image, with the permutation drawn
from the random generator passed explicitly. -/
def randomNoiseCall (noise_level white_value : ℚ) (perm : List ℕ)
    (image : List ℚ) : List ℚ :=
  setIndices white_value (noisePositions noise_level perm image.length) image

/-- Default `noise_level` of `RandomNoise.__init__`. -/
def defaultNoiseLevel : ℚ := 0

/-- Default `white_value` of `RandomNoise.__init__`: `0.1307 + 2*0.3081`. -/
def defaultWhiteValue : ℚ := 1307 / 10000 + 2 * (3081 / 10000)

lemma setIndices_nil (w : ℚ) (a : List ℚ) : setIndices w [] a = a := rfl

lemma setIndices_cons (w : ℚ) (i : ℕ) (idxs : List ℕ) (a : List ℚ) :
    setIndices w (i :: idxs) a = setIndices w idxs (a.set i w) := rfl

lemma length_setIndices (w : ℚ) (idxs : List ℕ) (a : List ℚ) :
    (setIndices w idxs a).length = a.length := by
  induction idxs generalizing a with
  | nil => rfl
  | cons i rest ih =>
      rw [setIndices_cons, ih, List.length_set]

lemma getElem?_setIndices_of_notMem (w : ℚ) (idxs : List ℕ) (a : List ℚ)
    (i : ℕ) (h : i ∉ idxs) : (setIndices w idxs a)[i]? = a[i]? := by
  induction idxs generalizing a with
  | nil => rfl
  | cons j rest ih =>
      rw [setIndices_cons, ih _ (fun hm => h (List.mem_cons_of_mem j hm))]
      exact List.getElem?_set_ne
        (fun hj => h (by rw [← hj]; exact List.mem_cons_self j rest))

lemma getElem?_setIndices_of_mem (w : ℚ) (idxs : List ℕ) (a : List ℚ)
    (i : ℕ) (hmem : i ∈ idxs) (hlt : i < a.length) :
    (setIndices w idxs a)[i]? = some w := by
  induction idxs generalizing a with
  | nil => cases hmem
  | cons j rest ih =>
      rw [setIndices_cons]
      by_cases hr : i ∈ rest
      · exact ih _ hr (by rw [List.length_set]; exact hlt)
      · have hij : i = j := by
          rcases List.mem_cons.mp hmem with h | h
          · exact h
          · exact absurd h hr
        subst hij
        rw [getElem?_setIndices_of_notMem w rest _ i hr]
        exact List.getElem?_set_self hlt

/-- For `0 ≤ q`, Python truncation agrees with the floor. -/
lemma pyInt_of_nonneg {q : ℚ} (h : 0 ≤ q) : pyInt q = ⌊q⌋ := by
  unfold pyInt
  rw [if_neg (not_lt.mpr h)]

lemma numNoiseBits_le (n : ℕ) {noise_level : ℚ} (h0 : 0 ≤ noise_level)
    (h1 : noise_level ≤ 1) : numNoiseBits n noise_level ≤ n := by
  unfold numNoiseBits
  rw [pyInt_of_nonneg (mul_nonneg (Nat.cast_nonneg n) h0)]
  refine Int.toNat_le.mpr ?_
  calc ⌊(n : ℚ) * noise_level⌋ ≤ ⌊((n : ℕ) : ℚ)⌋ :=
        Int.floor_le_floor (mul_le_of_le_one_right (Nat.cast_nonneg n) h1)
    _ = (n : ℤ) := Int.floor_natCast n

lemma numNoiseBits_cast (n : ℕ) {noise_level : ℚ} (h0 : 0 ≤ noise_level) :
    ((numNoiseBits n noise_level : ℕ) : ℤ) = ⌊(n : ℚ) * noise_level⌋ := by
  unfold numNoiseBits
  rw [pyInt_of_nonneg (mul_nonneg (Nat.cast_nonneg n) h0)]
  exact Int.toNat_of_nonneg
    (Int.floor_nonneg.mpr (mul_nonneg (Nat.cast_nonneg n) h0))

/-- C1.  For every image with `N` pixel entries, every noise level
`p ∈ [0,1]` and every permutation of the pixel positions drawn from the
random generator, `RandomNoise.__call__` selects exactly
`⌊N * p⌋` distinct pixel positions, overwrites each selected position with
the fixed white value, and leaves every other position's value unchanged. -/
theorem randomNoise_changes_floor (noise_level white_value : ℚ)
    (perm : List ℕ) (image : List ℚ)
    (hperm : perm.Perm (List.range image.length))
    (h0 : 0 ≤ noise_level) (h1 : noise_level ≤ 1) :
    (((noisePositions noise_level perm image.length).length : ℕ) : ℤ)
        = ⌊(image.length : ℚ) * noise_level⌋ ∧
    (noisePositions noise_level perm image.length).Nodup ∧
    (∀ i ∈ noisePositions noise_level perm image.length,
        (randomNoiseCall noise_level white_value perm image)[i]?
          = some white_value) ∧
    (∀ i, i ∉ noisePositions noise_level perm image.length →
        (randomNoiseCall noise_level white_value perm image)[i]?
          = image[i]?) := by
  have hplen : perm.length = image.length := by
    rw [hperm.length_eq, List.length_range]
  have hk : numNoiseBits image.length noise_level ≤ image.length :=
    numNoiseBits_le image.length h0 h1
  refine ⟨?_, ?_, ?_, ?_⟩
  · rw [noisePositions, List.length_take, hplen,
      min_eq_left hk, numNoiseBits_cast image.length h0]
  · exact ((List.take_sublist _ _).nodup
      (hperm.nodup_iff.mpr (List.nodup_range image.length)))
  · intro i hi
    have hi_perm : i ∈ perm := (List.take_sublist _ _).subset hi
    have hi_lt : i < image.length :=
      List.mem_range.mp (hperm.mem_iff.mp hi_perm)
    exact getElem?_setIndices_of_mem white_value _ image i hi hi_lt
  · intro i hi
    exact getElem?_setIndices_of_notMem white_value _ image i hi

/-- Witness for C1 at a concrete image, noise level and permutation. -/
theorem randomNoise_changes_floor_witness :
    (([2, 0, 3, 1] : List ℕ).Perm (List.range [(3 : ℚ), 4, 5, 6].length)) ∧
    ((0 : ℚ) ≤ 1 / 2) ∧ ((1 / 2 : ℚ) ≤ 1) ∧
    ((((noisePositions (1 / 2) [2, 0, 3, 1]
        [(3 : ℚ), 4, 5, 6].length).length : ℕ) : ℤ)
      = ⌊(([(3 : ℚ), 4, 5, 6].length : ℚ)) * (1 / 2)⌋) :=
  ⟨by norm_num; decide, by norm_num, by norm_num,
    (randomNoise_changes_floor (1 / 2) 9 [2, 0, 3, 1] [3, 4, 5, 6]
      (by norm_num; decide) (by norm_num) (by norm_num)).1⟩

/-- C6.  `RandomNoise.__call__` returns the mutated image itself (in this
embedding: the written-back flat view, of the same length as the input), and
every pixel position outside the selected subset keeps exactly its original
value. -/
theorem randomNoise_frame (noise_level white_value : ℚ) (perm : List ℕ)
    (image : List ℚ) :
    (randomNoiseCall noise_level white_value perm image).length
        = image.length ∧
    ∀ i, i ∉ noisePositions noise_level perm image.length →
      (randomNoiseCall noise_level white_value perm image)[i]?
        = image[i]? := by
  refine ⟨length_setIndices _ _ _, ?_⟩
  intro i hi
  exact getElem?_setIndices_of_notMem white_value _ image i hi

/-- Witness for C6 at a concrete image, noise level and permutation. -/
theorem randomNoise_frame_witness :
    ((0 : ℕ) ∉ noisePositions (1 / 2) [1, 0] [(3 : ℚ), 4].length) ∧
    (randomNoiseCall (1 / 2) 9 [1, 0] [(3 : ℚ), 4]).length
        = [(3 : ℚ), 4].length ∧
    (randomNoiseCall (1 / 2) 9 [1, 0] [(3 : ℚ), 4])[0]?
        = [(3 : ℚ), 4][0]? :=
  ⟨by norm_num [noisePositions, numNoiseBits, pyInt],
    (randomNoise_frame (1 / 2) 9 [1, 0] [3, 4]).1,
    (randomNoise_frame (1 / 2) 9 [1, 0] [3, 4]).2 0
      (by norm_num [noisePositions, numNoiseBits, pyInt])⟩

/-- C9.  With the default `noise_level = 0` — and more generally whenever
`N * noise_level < 1` for an image with `N` pixel entries — the transform
selects zero positions and returns the image unchanged. -/
theorem randomNoise_identity_below_one (noise_level white_value : ℚ)
    (perm : List ℕ) (image : List ℚ) (h0 : 0 ≤ noise_level)
    (h1 : (image.length : ℚ) * noise_level < 1) :
    noisePositions noise_level perm image.length = [] ∧
    randomNoiseCall noise_level white_value perm image = image := by
  have hk : numNoiseBits image.length noise_level = 0 := by
    unfold numNoiseBits
    rw [pyInt_of_nonneg (mul_nonneg (Nat.cast_nonneg _) h0)]
    refine Int.toNat_eq_zero.mpr ?_
    have : ⌊(image.length : ℚ) * noise_level⌋ < 1 := by
      refine Int.floor_lt.mpr ?_
      simpa using h1
    omega
  constructor
  · rw [noisePositions, hk, List.take_zero]
  · rw [randomNoiseCall, noisePositions, hk, List.take_zero, setIndices_nil]

/-- Witness for C9 at the default noise level on a concrete image. -/
theorem randomNoise_identity_below_one_witness :
    ((0 : ℚ) ≤ defaultNoiseLevel) ∧
    (([(1 : ℚ), 2, 3].length : ℚ) * defaultNoiseLevel < 1) ∧
    randomNoiseCall defaultNoiseLevel defaultWhiteValue [2, 0, 1]
        [(1 : ℚ), 2, 3] = [(1 : ℚ), 2, 3] :=
  ⟨by norm_num [defaultNoiseLevel], by norm_num [defaultNoiseLevel],
    (randomNoise_identity_below_one defaultNoiseLevel defaultWhiteValue
      [2, 0, 1] [1, 2, 3] (by norm_num [defaultNoiseLevel])
      (by norm_num [defaultNoiseLevel])).2⟩

/-! ### The test (evaluation) loop

Source (`sparse_cnn.ipynb`, `test`):

```
model.eval()
loss = 0
total_correct = 0
with torch.no_grad():
    for data, target in tqdm(loader, leave=False):
        data, target = data.to(device), target.to(device)
        output = model(data)
        loss += criterion(output, target, reduction='sum').item()
        pred = output.argmax(dim=1, keepdim=True)
        total_correct += pred.eq(target.view_as(pred)).sum().item()

return {"accuracy": total_correct / len(loader.dataset),
        "loss": loss / len(loader.dataset),
        "total_correct": total_correct}
```

The model is embedded as a state (parameters plus the train/eval mode flag)
together with a pure forward function of the parameters; `model.eval()`
clears the mode flag, and — since gradient tracking is disabled and no
optimizer step occurs — the loop threads the model state through unchanged.
A loader is a list of batches, each batch a list of `(input, label)`
samples; `len(loader.dataset)` is the total number of samples. -/

/-- `output.argmax(dim=1)` for one sample: index of the first maximal entry
of the output vector. -/
def argmaxAux : List ℚ → ℕ → ℕ → ℚ → ℕ
  | [], _, best, _ => best
  | v :: rest, i, best, bestVal =>
      if bestVal < v then argmaxAux rest (i + 1) i v
      else argmaxAux rest (i + 1) best bestVal

/-- Index of the first maximal entry of a score vector (0 if empty). -/
def argmaxIdx : List ℚ → ℕ
  | [] => 0
  | v :: rest => argmaxAux rest 1 0 v

/-- The dict returned by `test`: exactly the keys `"accuracy"`, `"loss"` and
`"total_correct"`. -/
structure TestResults where
  accuracy : ℚ
  loss : ℚ
  total_correct : ℕ
  deriving DecidableEq

/-- A model: its parameter tensors plus the train/eval mode flag toggled by
`model.train()` / `model.eval()`. -/
structure ModelState (P : Type) where
  params : P
  training : Bool

/-- `model.eval()`. -/
def modelEval {P : Type} (m : ModelState P) : ModelState P :=
  ModelState.mk m.params false

/-- Whether a sample's argmax prediction equals its label. -/
def isCorrect {P α : Type} (forward : P → α → List ℚ) (p : P)
    (s : α × ℕ) : Bool :=
  argmaxIdx (forward p s.1) == s.2

/-- Per-sample loss of the criterion (`reduction='sum'` adds these over a
batch; modelled from the spec for the external `F.nll_loss`). -/
def sampleLoss {P α : Type} (forward : P → α → List ℚ)
    (criterion : List ℚ → ℕ → ℚ) (p : P) (s : α × ℕ) : ℚ :=
  criterion (forward p s.1) s.2

/-- The accumulation loop of `test`: folds over the batches, adding the
batch's summed loss and its count of correct predictions, threading the
model state through each iteration (no parameter is written). -/
def testLoop {P α : Type} (forward : P → α → List ℚ)
    (criterion : List ℚ → ℕ → ℚ) :
    List (List (α × ℕ)) → ModelState P → ℚ → ℕ → ℚ × ℕ × ModelState P
  | [], m, loss, total_correct => (loss, total_correct, m)
  | b :: rest, m, loss, total_correct =>
      testLoop forward criterion rest m
        (loss + (b.map (sampleLoss forward criterion m.params)).sum)
        (total_correct + b.countP (isCorrect forward m.params))

/-- `test(model, loader, criterion)`: returns the results dict and the model
state after the evaluation pass. -/
def test {P α : Type} (forward : P → α → List ℚ)
    (criterion : List ℚ → ℕ → ℚ) (loader : List (List (α × ℕ)))
    (m : ModelState P) : TestResults × ModelState P :=
  let r := testLoop forward criterion loader (modelEval m) 0 0
  let n : ℚ := (loader.flatten.length : ℚ)
  (TestResults.mk ((r.2.1 : ℚ) / n) (r.1 / n) r.2.1, r.2.2)

lemma testLoop_eq {P α : Type} (forward : P → α → List ℚ)
    (criterion : List ℚ → ℕ → ℚ) (loader : List (List (α × ℕ)))
    (m : ModelState P) (loss : ℚ) (total_correct : ℕ) :
    testLoop forward criterion loader m loss total_correct =
      (loss + (loader.flatten.map (sampleLoss forward criterion m.params)).sum,
       total_correct + loader.flatten.countP (isCorrect forward m.params),
       m) := by
  induction loader generalizing loss total_correct with
  | nil => simp [testLoop]
  | cons b rest ih =>
      rw [testLoop, ih]
      simp [List.flatten_cons, List.countP_append, add_assoc]

/-- C2.  `test` returns a mapping with exactly the keys `"accuracy"`,
`"loss"` and `"total_correct"`, where `total_correct` counts the samples
whose argmax prediction equals the label, `accuracy` is `total_correct`
divided by the dataset size, and `loss` is the sum of the per-sample losses
divided by the dataset size (the average loss). -/
theorem test_returns_results (P α : Type) (forward : P → α → List ℚ)
    (criterion : List ℚ → ℕ → ℚ) (loader : List (List (α × ℕ)))
    (m : ModelState P) :
    (test forward criterion loader m).1 =
      TestResults.mk
        ((loader.flatten.countP (isCorrect forward m.params) : ℚ)
          / (loader.flatten.length : ℚ))
        ((loader.flatten.map (sampleLoss forward criterion m.params)).sum
          / (loader.flatten.length : ℚ))
        (loader.flatten.countP (isCorrect forward m.params)) := by
  rw [test, testLoop_eq]
  simp [modelEval]

/-- C7.  `test` leaves the model's parameter tensors unchanged: evaluation
runs without gradient tracking and performs no optimizer step, so the model
state coming out of the loop carries exactly the parameters it went in
with. -/
theorem test_params_unchanged (P α : Type) (forward : P → α → List ℚ)
    (criterion : List ℚ → ℕ → ℚ) (loader : List (List (α × ℕ)))
    (m : ModelState P) :
    (test forward criterion loader m).2.params = m.params := by
  rw [test, testLoop_eq]
  simp [modelEval]

/-- C10.  `total_correct` is a natural number bounded by the dataset size,
and the returned accuracy lies in `[0, 1]`. -/
theorem test_accuracy_bounds (P α : Type) (forward : P → α → List ℚ)
    (criterion : List ℚ → ℕ → ℚ) (loader : List (List (α × ℕ)))
    (m : ModelState P) (hpos : 0 < loader.flatten.length) :
    (test forward criterion loader m).1.total_correct
        ≤ loader.flatten.length ∧
    0 ≤ (test forward criterion loader m).1.accuracy ∧
    (test forward criterion loader m).1.accuracy ≤ 1 := by
  have hcount : loader.flatten.countP (isCorrect forward m.params)
      ≤ loader.flatten.length := List.countP_le_length _
  have htc : (test forward criterion loader m).1.total_correct
      = loader.flatten.countP (isCorrect forward m.params) := by
    rw [test, testLoop_eq]
    simp [modelEval]
  have hacc : (test forward criterion loader m).1.accuracy
      = ((loader.flatten.countP (isCorrect forward m.params) : ℚ)
          / (loader.flatten.length : ℚ)) := by
    rw [test, testLoop_eq]
    simp [modelEval]
  have hnpos : (0 : ℚ) < (loader.flatten.length : ℚ) := by
    exact_mod_cast hpos
  refine ⟨htc ▸ hcount, ?_, ?_⟩
  · rw [hacc]
    exact div_nonneg (Nat.cast_nonneg _) (le_of_lt hnpos)
  · rw [hacc]
    rw [div_le_one hnpos]
    exact_mod_cast hcount

/-- Witness for C10 on a concrete one-sample dataset. -/
theorem test_accuracy_bounds_witness :
    (0 < ([[((), 0)], [((), 1)]] : List (List (Unit × ℕ))).flatten.length) ∧
    (test (fun (_ : Unit) (_ : Unit) => [(1 : ℚ), 0])
        (fun _ _ => 0) [[((), 0)], [((), 1)]]
        (ModelState.mk () true)).1.total_correct
      ≤ ([[((), 0)], [((), 1)]] : List (List (Unit × ℕ))).flatten.length ∧
    0 ≤ (test (fun (_ : Unit) (_ : Unit) => [(1 : ℚ), 0])
        (fun _ _ => 0) [[((), 0)], [((), 1)]]
        (ModelState.mk () true)).1.accuracy ∧
    (test (fun (_ : Unit) (_ : Unit) => [(1 : ℚ), 0])
        (fun _ _ => 0) [[((), 0)], [((), 1)]]
        (ModelState.mk () true)).1.accuracy ≤ 1 :=
  ⟨by decide,
    (test_accuracy_bounds Unit Unit (fun _ _ => [(1 : ℚ), 0]) (fun _ _ => 0)
      [[((), 0)], [((), 1)]] (ModelState.mk () true) (by decide))⟩

/-! ### The train loop

Source (`sparse_cnn.ipynb`, `train`):

```
model.train()
for batch_idx, (data, target) in enumerate(tqdm(loader, leave=False)):
    data, target = data.to(device), target.to(device)
    optimizer.zero_grad()
    output = model(data)
    loss = criterion(output, target)
    loss.backward()
    optimizer.step()
    if post_batch_callback is not None:
        post_batch_callback(model)
```

The loop body is transcribed line by line as a trace of events, one event
per framework call, in source order. -/

/-- One framework call of the `train` loop body, tagged with its batch
index. -/
inductive TrainStep where
  | zeroGrad (batchIdx : ℕ)
  | forwardPass (batchIdx : ℕ)
  | lossCompute (batchIdx : ℕ)
  | backwardPass (batchIdx : ℕ)
  | optimizerStep (batchIdx : ℕ)
  | callbackRun (batchIdx : ℕ)
  deriving DecidableEq

/-- The body of `train` for one batch: the five framework calls in source
order, followed by the callback call exactly when a callback was
provided. -/
def trainBatchTrace (i : ℕ) (hasCallback : Bool) : List TrainStep :=
  [TrainStep.zeroGrad i, TrainStep.forwardPass i, TrainStep.lossCompute i,
   TrainStep.backwardPass i, TrainStep.optimizerStep i]
    ++ (if hasCallback then [TrainStep.callbackRun i] else [])

/-- The trace of `train` over a loader with `n` batches. -/
def trainTrace (n : ℕ) (hasCallback : Bool) : List TrainStep :=
  (List.range n).flatMap (fun i => trainBatchTrace i hasCallback)

/-- Discriminates the callback event of batch `i`. -/
def isCallbackFor (i : ℕ) : TrainStep → Bool
  | TrainStep.callbackRun j => j == i
  | _ => false

/-- Discriminates any callback event. -/
def isCallbackStep : TrainStep → Bool
  | TrainStep.callbackRun _ => true
  | _ => false

lemma trainTrace_succ (n : ℕ) (hc : Bool) :
    trainTrace (n + 1) hc = trainTrace n hc ++ trainBatchTrace n hc := by
  rw [trainTrace, List.range_succ, List.flatMap_append, trainTrace]
  simp

lemma countP_callbackFor_batch (i j : ℕ) (hc : Bool) :
    (trainBatchTrace j hc).countP (isCallbackFor i)
      = if hc = true ∧ j = i then 1 else 0 := by
  cases hc <;>
    simp [trainBatchTrace, isCallbackFor, List.countP_cons, List.countP_append]

lemma countP_callbackFor_trace (n i : ℕ) (hc : Bool) :
    (trainTrace n hc).countP (isCallbackFor i)
      = if hc = true ∧ i < n then 1 else 0 := by
  induction n with
  | zero => simp [trainTrace]
  | succ n ih =>
      rw [trainTrace_succ, List.countP_append, ih, countP_callbackFor_batch]
      rcases Nat.lt_trichotomy i n with h | h | h
      · have hne : n ≠ i := fun hni => Nat.lt_irrefl n (hni ▸ h)
        rcases hc with _ | _ <;> simp [h, Nat.lt_succ_of_lt h, hne]
      · subst h
        rcases hc with _ | _ <;> simp [Nat.lt_irrefl, Nat.lt_succ_self]
      · have h1 : ¬ i < n := Nat.not_lt.mpr (Nat.le_of_lt h)
        have h2 : ¬ i < n + 1 := Nat.not_lt.mpr h
        have h3 : n ≠ i := Nat.ne_of_lt h
        rcases hc with _ | _ <;> simp [h1, h2, h3]

lemma countP_callbackStep_batch (j : ℕ) (hc : Bool) :
    (trainBatchTrace j hc).countP isCallbackStep = if hc = true then 1 else 0 := by
  cases hc <;>
    simp [trainBatchTrace, isCallbackStep, List.countP_cons, List.countP_append]

lemma countP_callbackStep_trace (n : ℕ) (hc : Bool) :
    (trainTrace n hc).countP isCallbackStep = if hc = true then n else 0 := by
  induction n with
  | zero => simp [trainTrace]
  | succ n ih =>
      rw [trainTrace_succ, List.countP_append, ih, countP_callbackStep_batch]
      rcases hc with _ | _ <;> simp

/-- C4.  For every batch of `train`, the steps happen in source order —
zero the gradients, forward pass, loss, backward pass, optimizer step —
followed, exactly when a `post_batch_callback` was provided, by exactly one
callback call on the model; with no callback provided no callback event
occurs anywhere in the run. -/
theorem train_batch_order (n i : ℕ) (hc : Bool) (h : i < n) :
    (trainBatchTrace i hc).Sublist (trainTrace n hc) ∧
    (trainTrace n hc).countP (isCallbackFor i)
        = (if hc = true then 1 else 0) ∧
    (hc = false → (trainTrace n hc).countP isCallbackStep = 0) := by
  refine ⟨?_, ?_, ?_⟩
  · induction n with
    | zero => cases h
    | succ n ih =>
        rw [trainTrace_succ]
        rcases Nat.lt_succ_iff_lt_or_eq.mp h with h1 | h1
        · exact (ih h1).trans (List.sublist_append_left _ _)
        · subst h1
          exact List.sublist_append_right _ _
  · rw [countP_callbackFor_trace]
    rcases hc with _ | _ <;> simp [h]
  · intro hfalse
    subst hfalse
    rw [countP_callbackStep_trace]
    simp

/-- Witness for C4: three batches with a callback provided. -/
theorem train_batch_order_witness :
    (1 < 3) ∧
    ((trainBatchTrace 1 true).Sublist (trainTrace 3 true) ∧
      (trainTrace 3 true).countP (isCallbackFor 1)
          = (if true = true then 1 else 0) ∧
      (true = false → (trainTrace 3 true).countP isCallbackStep = 0)) :=
  ⟨by decide, train_batch_order 3 1 true (by decide)⟩

/-! ### The script schedule

Source (`sparse_cnn.ipynb`, parameter cell and the cells that run the
experiment):

```
EPOCHS = 10
FIRST_EPOCH_BATCH_SIZE = 4
TRAIN_BATCH_SIZE = 64
TEST_BATCH_SIZE = 1000
NOISE_LEVELS = [0.05, 0.10, 0.15, 0.20, 0.25]

train(model=sparse_cnn, loader=first_loader, optimizer=sgd,
      criterion=F.nll_loss, post_batch_callback=post_batch)
sparse_cnn.apply(update_boost_strength)
test(model=sparse_cnn, loader=test_loader, criterion=F.nll_loss)

for epoch in range(1, EPOCHS):
    train(model=sparse_cnn, loader=train_loader, optimizer=sgd,
          criterion=F.nll_loss, post_batch_callback=post_batch)
    sparse_cnn.apply(update_boost_strength)
    results = test(model=sparse_cnn, loader=test_loader, criterion=F.nll_loss)
    print(results)

for noise in NOISE_LEVELS:
    ...
    results = test(model=sparse_cnn, loader=noise_loader, criterion=F.nll_loss)
```

The `first_loader` uses `FIRST_EPOCH_BATCH_SIZE`, `train_loader` uses
`TRAIN_BATCH_SIZE`.  Each top-level call becomes one trace event. -/

def EPOCHS : ℕ := 10

def FIRST_EPOCH_BATCH_SIZE : ℕ := 4

def TRAIN_BATCH_SIZE : ℕ := 64

def TEST_BATCH_SIZE : ℕ := 1000

def NOISE_LEVELS : List ℚ := [5 / 100, 10 / 100, 15 / 100, 20 / 100, 25 / 100]

/-- One top-level call of the script. -/
inductive ScriptEvent where
  | trainEpoch (batchSize : ℕ) (withCallback : Bool)
  | boostUpdate
  | cleanTest
  | noiseTest (level : ℚ)
  deriving DecidableEq

/-- The sequence of top-level calls the notebook performs, in source
order. -/
def scriptTrace : List ScriptEvent :=
  [ScriptEvent.trainEpoch FIRST_EPOCH_BATCH_SIZE true,
   ScriptEvent.boostUpdate, ScriptEvent.cleanTest]
    ++ (List.range (EPOCHS - 1)).flatMap
        (fun _ => [ScriptEvent.trainEpoch TRAIN_BATCH_SIZE true,
                   ScriptEvent.boostUpdate, ScriptEvent.cleanTest])
    ++ NOISE_LEVELS.map ScriptEvent.noiseTest

/-- Discriminates training-epoch events. -/
def isTrainEvent : ScriptEvent → Bool
  | ScriptEvent.trainEpoch _ _ => true
  | _ => false

/-- Discriminates noisy-evaluation events. -/
def isNoiseTest : ScriptEvent → Bool
  | ScriptEvent.noiseTest _ => true
  | _ => false

/-- Checks that every training epoch is immediately followed by an
`update_boost_strength` application. -/
def boostFollowsTrain : List ScriptEvent → Bool
  | [] => true
  | e :: rest =>
      (if isTrainEvent e then rest.head? == some ScriptEvent.boostUpdate
       else true)
        && boostFollowsTrain rest

/-- C3.  The script runs exactly one first-epoch training pass with batch
size `FIRST_EPOCH_BATCH_SIZE = 4` followed by `EPOCHS - 1` further training
epochs with batch size `TRAIN_BATCH_SIZE = 64` (`EPOCHS = 10` training
epochs in total); `update_boost_strength` is applied immediately after every
training epoch; and the run ends with a final evaluation once on the clean
test set followed by one noisy evaluation per level of `NOISE_LEVELS`. -/
theorem script_schedule :
    EPOCHS = 10 ∧ FIRST_EPOCH_BATCH_SIZE = 4 ∧ TRAIN_BATCH_SIZE = 64 ∧
    scriptTrace.countP isTrainEvent = EPOCHS ∧
    scriptTrace.head?
        = some (ScriptEvent.trainEpoch FIRST_EPOCH_BATCH_SIZE true) ∧
    scriptTrace.countP
        (fun e => e == ScriptEvent.trainEpoch FIRST_EPOCH_BATCH_SIZE true)
      = 1 ∧
    scriptTrace.countP
        (fun e => e == ScriptEvent.trainEpoch TRAIN_BATCH_SIZE true)
      = EPOCHS - 1 ∧
    boostFollowsTrain scriptTrace = true ∧
    scriptTrace.countP isNoiseTest = NOISE_LEVELS.length ∧
    scriptTrace.drop (scriptTrace.length - (1 + NOISE_LEVELS.length))
      = ScriptEvent.cleanTest :: NOISE_LEVELS.map ScriptEvent.noiseTest := by
  refine ⟨rfl, rfl, rfl, by decide, by decide, by decide, by decide,
    by decide, by decide, rfl⟩

/-! ### Sparse weights and the post-batch rezero

The `SparseWeights` / `SparseWeights2d` modules and `rezero_weights` are
imported from `nupic.torch.modules`, which is part of this repository but
not under `src/`; they are modelled from the spec below.  The script's own
code is

```
def post_batch(model):
    model.apply(rezero_weights)
```

and `post_batch` is passed as the `post_batch_callback` of every training
epoch (the first-epoch pass and each later epoch), so it runs after every
batch. -/

/-- Modelled from the spec: a sparse layer of `nupic.torch.modules`
(`SparseWeights` / `SparseWeights2d`): "a weight matrix/kernel with a fixed
fraction of entries held at zero throughout training".  The layer carries
its weight entries and the sparsity mask marking the entries held at
zero. -/
structure SparseLayer where
  weights : List ℚ
  zeroMask : List Bool

/-- Modelled from the spec: `rezero_weights` of `nupic.torch.modules`
re-enforces the sparsity mask "by zeroing previously-zeroed weights". -/
def rezero_weights (l : SparseLayer) : SparseLayer :=
  SparseLayer.mk
    (List.zipWith (fun m w => if m then 0 else w) l.zeroMask l.weights)
    l.zeroMask

/-- One optimizer step, abstracted: it rewrites the weight entries (shapes
are fixed at construction) and touches nothing else. -/
def optimizerUpdate (u : List ℚ → List ℚ) (l : SparseLayer) : SparseLayer :=
  SparseLayer.mk (u l.weights) l.zeroMask

/-- `post_batch(model)`: applies `rezero_weights` to the model's modules. -/
def post_batch (l : SparseLayer) : SparseLayer :=
  rezero_weights l

/-- One training batch acting on a sparse layer: the optimizer step, then
the post-batch callback. -/
def trainBatchLayer (u : List ℚ → List ℚ) (l : SparseLayer) : SparseLayer :=
  post_batch (optimizerUpdate u l)

/-- A training run over a sequence of per-batch optimizer updates (the
first-epoch pass together with all later epochs), the post-batch rezero
running after every batch. -/
def trainRunLayer (us : List (List ℚ → List ℚ)) (l : SparseLayer) :
    SparseLayer :=
  us.foldl (fun acc u => trainBatchLayer u acc) l

/-- Every entry marked by the sparsity mask is zero. -/
def maskedZero (l : SparseLayer) : Prop :=
  ∀ i, i < l.zeroMask.length → l.zeroMask[i]? = some true →
    l.weights[i]? = some 0

instance decidableMaskedZero (l : SparseLayer) : Decidable (maskedZero l) :=
  inferInstanceAs (Decidable (∀ i, i < l.zeroMask.length →
    l.zeroMask[i]? = some true → l.weights[i]? = some 0))

lemma zipWith_mask_getElem? (ms : List Bool) (ws : List ℚ) (i : ℕ)
    (hm : ms[i]? = some true) (hw : i < ws.length) :
    (List.zipWith (fun m w => if m then 0 else w) ms ws)[i]? = some 0 := by
  induction ms generalizing ws i with
  | nil => simp at hm
  | cons m ms ih =>
      cases ws with
      | nil => simp at hw
      | cons w ws =>
          cases i with
          | zero =>
              simp at hm
              simp [hm]
          | succ i =>
              rw [List.zipWith_cons_cons, List.getElem?_cons_succ]
              rw [List.getElem?_cons_succ] at hm
              exact ih ws i hm (Nat.lt_of_succ_lt_succ hw)

lemma maskCount_le_zeroCount (ws : List ℚ) (ms : List Bool)
    (hlen : ws.length = ms.length)
    (h : ∀ i, i < ms.length → ms[i]? = some true → ws[i]? = some 0) :
    ms.countP (fun b => b) ≤ ws.countP (fun w => decide (w = 0)) := by
  induction ms generalizing ws with
  | nil => simp
  | cons m ms ih =>
      cases ws with
      | nil => simp at hlen
      | cons w ws =>
          have htail : ∀ i, i < ms.length → ms[i]? = some true →
              ws[i]? = some 0 := by
            intro i hi hm
            have := h (i + 1) (Nat.succ_lt_succ hi)
              (by simpa using hm)
            simpa using this
          have hrec := ih ws (by simpa using hlen) htail
          have e1 : (m :: ms).countP (fun b => b)
              = ms.countP (fun b => b) + if m = true then 1 else 0 :=
            List.countP_cons _ _ _
          have e2 : (w :: ws).countP (fun x => decide (x = 0))
              = ws.countP (fun x => decide (x = 0))
                  + if w = 0 then 1 else 0 := by
            rw [List.countP_cons]
            by_cases hw : w = 0 <;> simp [hw]
          rcases m with _ | _
          · rw [e1, e2, if_neg Bool.false_ne_true]
            by_cases hw : w = 0
            · rw [if_pos hw]; omega
            · rw [if_neg hw]; omega
          · have hw : w = 0 := by
              have := h 0 (Nat.succ_pos _) (by simp)
              simpa using this
            rw [e1, e2, if_pos rfl, if_pos hw]
            omega

lemma trainBatchLayer_invariant (u : List ℚ → List ℚ) (l : SparseLayer)
    (hlen : l.weights.length = l.zeroMask.length)
    (hu : ∀ w : List ℚ, (u w).length = w.length) :
    maskedZero (trainBatchLayer u l) ∧
    (trainBatchLayer u l).zeroMask = l.zeroMask ∧
    (trainBatchLayer u l).weights.length = l.weights.length := by
  have hulen : (u l.weights).length = l.zeroMask.length := by
    rw [hu l.weights, hlen]
  refine ⟨?_, rfl, ?_⟩
  · intro i hi hm
    have hi' : i < l.zeroMask.length := hi
    have hm' : l.zeroMask[i]? = some true := hm
    show (List.zipWith (fun m w => if m then 0 else w)
        l.zeroMask (u l.weights))[i]? = some 0
    exact zipWith_mask_getElem? _ _ i hm' (by rw [hulen]; exact hi')
  · show (List.zipWith (fun m w => if m then 0 else w)
        l.zeroMask (u l.weights)).length = l.weights.length
    rw [List.length_zipWith, hulen, min_self]
    exact hlen.symm

lemma trainRunLayer_invariant (us : List (List ℚ → List ℚ))
    (l : SparseLayer) (hlen : l.weights.length = l.zeroMask.length)
    (h0 : maskedZero l)
    (hu : ∀ u ∈ us, ∀ w : List ℚ, (u w).length = w.length) :
    maskedZero (trainRunLayer us l) ∧
    (trainRunLayer us l).zeroMask = l.zeroMask ∧
    (trainRunLayer us l).weights.length = l.weights.length := by
  induction us generalizing l with
  | nil => exact ⟨h0, rfl, rfl⟩
  | cons u us ih =>
      have hu0 : ∀ w : List ℚ, (u w).length = w.length :=
        hu u (List.mem_cons_self u us)
      have hstep := trainBatchLayer_invariant u l hlen hu0
      have hrun := ih (trainBatchLayer u l)
        (by rw [hstep.2.2, hstep.2.1, hlen])
        hstep.1
        (fun v hv => hu v (List.mem_cons_of_mem u hv))
      have hcons : trainRunLayer (u :: us) l
          = trainRunLayer us (trainBatchLayer u l) := rfl
      rw [hcons]
      exact ⟨hrun.1, by rw [hrun.2.1, hstep.2.1],
        by rw [hrun.2.2, hstep.2.2]⟩

/-- C5.  Throughout a training run — after every batch of the first-epoch
pass and of every later epoch — the post-batch callback has re-applied
`rezero_weights`, so every weight entry marked by the sparsity mask is zero,
the mask itself never changes, and the number of zero entries of the layer
is always at least the (fixed) number of masked entries: the sparse fraction
held at zero stays fixed over the whole run. -/
theorem sparsity_mask_invariant (us pre suf : List (List ℚ → List ℚ))
    (l : SparseLayer) (hsplit : us = pre ++ suf)
    (hlen : l.weights.length = l.zeroMask.length)
    (h0 : maskedZero l)
    (hu : ∀ u ∈ us, ∀ w : List ℚ, (u w).length = w.length) :
    maskedZero (trainRunLayer pre l) ∧
    (trainRunLayer pre l).zeroMask = l.zeroMask ∧
    (trainRunLayer pre l).weights.length = l.weights.length ∧
    l.zeroMask.countP (fun b => b)
      ≤ (trainRunLayer pre l).weights.countP (fun w => decide (w = 0)) := by
  have hupre : ∀ u ∈ pre, ∀ w : List ℚ, (u w).length = w.length := by
    intro u humem
    exact hu u (by rw [hsplit]; exact List.mem_append_left suf humem)
  have hrun := trainRunLayer_invariant pre l hlen h0 hupre
  refine ⟨hrun.1, hrun.2.1, hrun.2.2, ?_⟩
  have hmz := hrun.1
  unfold maskedZero at hmz
  rw [hrun.2.1] at hmz
  refine maskCount_le_zeroCount _ _ ?_ hmz
  rw [hrun.2.2, hlen]

/-- Witness for C5: a two-entry layer with one masked entry, one batch whose
optimizer update shifts every weight by one. -/
theorem sparsity_mask_invariant_witness :
    ([fun w : List ℚ => w.map (fun x => x + 1)]
        = [fun w : List ℚ => w.map (fun x => x + 1)] ++ []) ∧
    ((SparseLayer.mk [0, 5] [true, false]).weights.length
        = (SparseLayer.mk [0, 5] [true, false]).zeroMask.length) ∧
    maskedZero (SparseLayer.mk [0, 5] [true, false]) ∧
    (∀ u ∈ [fun w : List ℚ => w.map (fun x => x + 1)],
        ∀ w : List ℚ, (u w).length = w.length) ∧
    (maskedZero (trainRunLayer [fun w : List ℚ => w.map (fun x => x + 1)]
        (SparseLayer.mk [0, 5] [true, false])) ∧
      (trainRunLayer [fun w : List ℚ => w.map (fun x => x + 1)]
          (SparseLayer.mk [0, 5] [true, false])).zeroMask
        = (SparseLayer.mk [0, 5] [true, false]).zeroMask ∧
      (trainRunLayer [fun w : List ℚ => w.map (fun x => x + 1)]
          (SparseLayer.mk [0, 5] [true, false])).weights.length
        = (SparseLayer.mk [0, 5] [true, false]).weights.length ∧
      (SparseLayer.mk [0, 5] [true, false]).zeroMask.countP (fun b => b)
        ≤ (trainRunLayer [fun w : List ℚ => w.map (fun x => x + 1)]
            (SparseLayer.mk [0, 5] [true, false])).weights.countP
              (fun w => decide (w = 0))) :=
  ⟨rfl, rfl,
    by decide,
    by intro u humem w; rw [List.mem_singleton] at humem; subst humem; simp,
    sparsity_mask_invariant
      [fun w : List ℚ => w.map (fun x => x + 1)]
      [fun w : List ℚ => w.map (fun x => x + 1)] []
      (SparseLayer.mk [0, 5] [true, false]) rfl rfl
      (by decide)
      (by intro u humem w; rw [List.mem_singleton] at humem; subst humem;
          simp)⟩

/-! ### Determinism of the noise transform given the seed

`np.random` is numpy's global generator, external to the repository; it is
modelled as a deterministic generator with explicit state (`np.random.seed`
derives the state from the seed, `np.random.permutation` shuffles
`range(n)` by Fisher–Yates draws and advances the state).  The global
interpreter state also carries generator state unrelated to the transform
(torch's), to express that the output depends on nothing but the numpy
seed, the noise level and the image. -/

/-- Modelled from the spec: one draw of the generator (a linear congruential
step standing in for numpy's Mersenne Twister). -/
def lcgStep (s : ℕ) : ℕ :=
  (6364136223846793005 * s + 1442695040888963407) % 2 ^ 64

/-- Swap the entries of a list at two positions. -/
def listSwap (l : List ℕ) (a b : ℕ) : List ℕ :=
  match l[a]?, l[b]? with
  | some x, some y => (l.set a y).set b x
  | _, _ => l

/-- Fisher–Yates shuffling passes, from position `i + 1` down to `1`,
threading the generator state. -/
def fisherYatesAux : ℕ → List ℕ → ℕ → List ℕ × ℕ
  | 0, l, s => (l, s)
  | i + 1, l, s =>
      fisherYatesAux i (listSwap l (i + 1) (lcgStep s % (i + 2))) (lcgStep s)

/-- Modelled from the spec: `np.random.permutation(n)` — a shuffle of
`range(n)` drawn from the generator state, returned with the advanced
state. -/
def npPermutation (s n : ℕ) : List ℕ × ℕ :=
  match n with
  | 0 => ([], s)
  | m + 1 => fisherYatesAux m (List.range (m + 1)) s

/-- Modelled from the spec: `np.random.seed(seed)` — the generator state
determined by the seed. -/
def npSeedState (seed : ℕ) : ℕ :=
  seed % 2 ^ 32

/-- The global interpreter state `RandomNoise.__call__` runs in: numpy's
generator state, plus global state the transform does not consult (torch's
generator). -/
structure GlobalState where
  npRng : ℕ
  torchRng : ℕ

/-- `RandomNoise.__call__` as run in the script: draws the permutation from
the global numpy generator, overwrites the selected positions, and advances
the generator state. -/
def randomNoiseCallG (noise_level white_value : ℚ) (image : List ℚ)
    (g : GlobalState) : List ℚ × GlobalState :=
  (randomNoiseCall noise_level white_value
      (npPermutation g.npRng image.length).1 image,
   GlobalState.mk (npPermutation g.npRng image.length).2 g.torchRng)

/-- The pixel positions the call selects, as drawn from the global
generator. -/
def noisePositionsG (noise_level : ℚ) (image : List ℚ) (g : GlobalState) :
    List ℕ :=
  noisePositions noise_level (npPermutation g.npRng image.length).1
    image.length

/-- C8.  The noise transform is deterministic given the random seed: two
runs whose numpy generators were seeded with the same value — whatever the
rest of the global state holds — select the same pixel positions, produce
identical output tensors, and leave identical generator states. -/
theorem randomNoise_deterministic (seed : ℕ) (noise_level white_value : ℚ)
    (image : List ℚ) (g1 g2 : GlobalState)
    (h1 : g1.npRng = npSeedState seed) (h2 : g2.npRng = npSeedState seed) :
    noisePositionsG noise_level image g1
        = noisePositionsG noise_level image g2 ∧
    (randomNoiseCallG noise_level white_value image g1).1
        = (randomNoiseCallG noise_level white_value image g2).1 ∧
    (randomNoiseCallG noise_level white_value image g1).2.npRng
        = (randomNoiseCallG noise_level white_value image g2).2.npRng := by
  unfold noisePositionsG randomNoiseCallG
  rw [h1, h2]
  exact ⟨rfl, rfl, rfl⟩

/-- Witness for C8: two global states seeded identically for numpy but with
different torch state. -/
theorem randomNoise_deterministic_witness :
    ((GlobalState.mk (npSeedState 18) 0).npRng = npSeedState 18) ∧
    ((GlobalState.mk (npSeedState 18) 99).npRng = npSeedState 18) ∧
    (noisePositionsG (1 / 2) [(1 : ℚ), 2] (GlobalState.mk (npSeedState 18) 0)
        = noisePositionsG (1 / 2) [(1 : ℚ), 2]
            (GlobalState.mk (npSeedState 18) 99) ∧
      (randomNoiseCallG (1 / 2) 3 [(1 : ℚ), 2]
          (GlobalState.mk (npSeedState 18) 0)).1
        = (randomNoiseCallG (1 / 2) 3 [(1 : ℚ), 2]
            (GlobalState.mk (npSeedState 18) 99)).1 ∧
      (randomNoiseCallG (1 / 2) 3 [(1 : ℚ), 2]
          (GlobalState.mk (npSeedState 18) 0)).2.npRng
        = (randomNoiseCallG (1 / 2) 3 [(1 : ℚ), 2]
            (GlobalState.mk (npSeedState 18) 99)).2.npRng) :=
  ⟨rfl, rfl,
    randomNoise_deterministic 18 (1 / 2) 3 [1, 2]
      (GlobalState.mk (npSeedState 18) 0)
      (GlobalState.mk (npSeedState 18) 99) rfl rfl⟩

end SparseCNN
